import Mathlib

/-!
Verification development for the `package-history` repository: two small
command-line tools that mine a git repository's history.

Tool A (`index.js`, keyword tracker): enumerates commits touching files that
match a glob, fetches each file's content at each commit, keeps the lines
containing a keyword, optionally deduplicates consecutive values per file,
and serializes the result to CSV / grouped JSON / console.

Tool B (second script, manifest version tracker): for each tracked manifest
file, walks its commit history, parses the manifest as JSON, extracts the
version bound to a package name in `dependencies` / `devDependencies`,
deduplicates by distinct version value, and writes a JSON report.

Strings are modelled as lists of characters (`Str`).  The external `git`
executable is modelled as a record of oracle functions supplying the raw
stdout (or an error) of each invocation; the tools' own processing of that
output is translated from the source.  JavaScript numbers inside parsed JSON
are idealized as integers (no claim under study depends on float semantics),
and JSON object property access is modelled as own-property lookup
(prototype-inherited names such as `toString` are outside the model).
-/

abbrev Str := List Char

/-- Whitespace test used by `trim` modelling (the common ASCII whitespace
characters; JavaScript `trim` strips a slightly larger Unicode class, which
no input in this development exercises). -/
def isWs (c : Char) : Bool :=
  c = ' ' || c = '\t' || c = '\n' || c = '\r'

/-- JavaScript `String.prototype.trim`: drop whitespace from both ends. -/
def trimChars (s : Str) : Str :=
  ((s.dropWhile isWs).reverse.dropWhile isWs).reverse

/-- JavaScript `String.prototype.split(sep)` for a single-character
separator: always returns at least one (possibly empty) piece. -/
def splitOnChar (sep : Char) : Str → List Str
  | [] => [[]]
  | c :: cs =>
    match splitOnChar sep cs with
    | [] => [[]]
    | grp :: rest => if c = sep then [] :: grp :: rest else (c :: grp) :: rest

/-- Does `s` start with `pat`? (helper for the substring test). -/
def startsWithChars : Str → Str → Bool
  | [], _ => true
  | _ :: _, [] => false
  | p :: ps, c :: cs => p = c && startsWithChars ps cs

/-- JavaScript `String.prototype.includes(pat)`: case-sensitive literal
substring test. -/
def includesChars (pat : Str) : Str → Bool
  | [] => startsWithChars pat []
  | c :: cs => startsWithChars pat (c :: cs) || includesChars pat cs

namespace KeywordTool

/-- A commit as parsed from `git log --pretty=format:"%H|%ad"`. -/
structure Commit where
  hash : Str
  date : Str
deriving DecidableEq, Repr

/-- One emitted result row: `{ filename, date, line }` in `processCommits`. -/
structure ExtractionRecord where
  filename : Str
  date : Str
  line : Str
deriving DecidableEq, Repr

/-- The git executable as seen by the keyword tracker: raw stdout (or an
error) of `git diff-tree --no-commit-id --name-only -r <hash>` and of
`git show <hash>:<file>`, plus the glob-membership test
`glob.sync(filePattern, ...).includes(file)`. -/
structure Repo where
  diffTree : Str → Except Str Str
  showFile : Str → Str → Except Str Str
  matchesPattern : Str → Bool

/-- Source `getFilesInCommit`: on error logs and returns `[]`; otherwise splits the
diff-tree output into nonblank lines and keeps the pattern matches. -/
def getFilesInCommit (repo : Repo) (commitHash : Str) : List Str :=
  match repo.diffTree commitHash with
  | .error _ => []
  | .ok stdout =>
    let allFiles := (splitOnChar '\n' stdout).filter (fun f => trimChars f ≠ [])
    allFiles.filter repo.matchesPattern

/-- Source `getKeywordLines`: on error (file absent at that commit, ...) returns
`[]`; otherwise the lines of the content containing the keyword. -/
def getKeywordLines (repo : Repo) (commitHash filePath keyword : Str) : List Str :=
  match repo.showFile commitHash filePath with
  | .error _ => []
  | .ok stdout => (splitOnChar '\n' stdout).filter (fun line => includesChars keyword line)

/-- The `lastRecordedLinePerFile` map, as an insertion-ordered association
list (mirrors a JavaScript `Map`). -/
abbrev DedupMap := List (Str × Str)

/-- JavaScript `Map.prototype.get`. -/
def mapGet (m : DedupMap) (k : Str) : Option Str :=
  (m.find? (fun p => p.1 = k)).map (fun p => p.2)

/-- JavaScript `Map.prototype.set`: overwrite in place, or append a new binding. -/
def mapSet (m : DedupMap) (k v : Str) : DedupMap :=
  if m.any (fun p => p.1 = k) then
    m.map (fun p => if p.1 = k then (k, v) else p)
  else
    m ++ [(k, v)]

/-- The body of the `lines.forEach` loop in `processCommits`: trim the line;
under `--dedupe` skip it (without touching the map) when it equals the last
recorded line for the file, otherwise record the new line in the map; push a
result row. -/
def stepLine (dedupe : Bool) (file date line : Str)
    (acc : List ExtractionRecord × DedupMap) : List ExtractionRecord × DedupMap :=
  let trimmedLine := trimChars line
  if dedupe then
    if mapGet acc.2 file = some trimmedLine then
      acc
    else
      (acc.1 ++ [⟨file, date, trimmedLine⟩], mapSet acc.2 file trimmedLine)
  else
    (acc.1 ++ [⟨file, date, trimmedLine⟩], acc.2)

/-- The body of the `for (const file of files)` loop in `processCommits`
(the `lines.length > 0` guard is kept from the source). -/
def processFile (repo : Repo) (keyword : Str) (dedupe : Bool) (c : Commit)
    (acc : List ExtractionRecord × DedupMap) (file : Str) :
    List ExtractionRecord × DedupMap :=
  let lines := getKeywordLines repo c.hash file keyword
  if lines.length > 0 then
    lines.foldl (fun a line => stepLine dedupe file c.date line a) acc
  else
    acc

/-- The body of the `for (const [index, commit] of commits.entries())` loop. -/
def processCommit (repo : Repo) (keyword : Str) (dedupe : Bool)
    (acc : List ExtractionRecord × DedupMap) (c : Commit) :
    List ExtractionRecord × DedupMap :=
  (getFilesInCommit repo c.hash).foldl (processFile repo keyword dedupe c) acc

/-- Source `processCommits`, with the result list and the dedup map both visible. -/
def processCommitsAux (repo : Repo) (commits : List Commit) (keyword : Str)
    (dedupe : Bool) : List ExtractionRecord × DedupMap :=
  commits.foldl (processCommit repo keyword dedupe) ([], [])

/-- Source `processCommits`: the list of result rows. -/
def processCommits (repo : Repo) (commits : List Commit) (keyword : Str)
    (dedupe : Bool) : List ExtractionRecord :=
  (processCommitsAux repo commits keyword dedupe).1

/-- Escape a double quote by doubling it: `r.line.replace(/"/g, '""')`. -/
def escapeQuotes : Str → Str
  | [] => []
  | c :: cs => if c = '"' then '"' :: '"' :: escapeQuotes cs else c :: escapeQuotes cs

/-- One CSV row of `outputResults`: every field wrapped in double quotes,
but only the `line` field has its embedded quotes escaped. -/
def csvRow (r : ExtractionRecord) : Str :=
  '"' :: r.filename ++ '"' :: ',' :: '"' :: r.date ++ '"' :: ',' :: '"' ::
    escapeQuotes r.line ++ ['"']

/-- The CSV header (with its trailing newline, as in the source). -/
def csvHeader : Str := "Filename,Date,Line\n".toList

/-- JavaScript `Array.prototype.join(sep)`. -/
def joinRows (sep : Str) : List Str → Str
  | [] => []
  | [x] => x
  | x :: y :: xs => x ++ sep ++ joinRows sep (y :: xs)

/-- The full CSV text written by `outputResults`:
`header + csvLines.join('\n')`. -/
def csvContent (results : List ExtractionRecord) : Str :=
  csvHeader ++ joinRows ['\n'] (results.map csvRow)

/-- The grouped object built by `outputResults` for JSON (and console)
output, as an insertion-ordered association list: filenames in first-seen
order, each mapped to its ordered `{date, line}` entries.  (JavaScript
object keys that look like array indices would be reordered by the runtime;
the claims under study only concern the key set and per-key order.) -/
def groupStep (acc : List (Str × List (Str × Str))) (r : ExtractionRecord) :
    List (Str × List (Str × Str)) :=
  if acc.any (fun p => p.1 = r.filename) then
    acc.map (fun p => if p.1 = r.filename then (p.1, p.2 ++ [(r.date, r.line)]) else p)
  else
    acc ++ [(r.filename, [(r.date, r.line)])]

/-- The `results.reduce(...)` grouping of rows by filename. -/
def groupByFilename (results : List ExtractionRecord) :
    List (Str × List (Str × Str)) :=
  results.foldl groupStep []

/-- Property lookup on the grouped object. -/
def lookupGroup (m : List (Str × List (Str × Str))) (f : Str) :
    Option (List (Str × Str)) :=
  (m.find? (fun p => p.1 = f)).map (fun p => p.2)

end KeywordTool

namespace CsvReparse

/-- A parsed CSV row. -/
abbrev Triple := Str × Str × Str

/-- Modelled from the spec: re-parsing "respecting the doubled-quote
escaping rule".  Reads the body of a quoted field after its opening quote:
a doubled `""` stands for a literal quote, a single `"` closes the field,
any other character (commas and newlines included) is literal.  Returns the
field value and the remaining input, or `none` on a dangling quote. -/
def parseQuoted : Str → Option (Str × Str)
  | [] => none
  | c :: rest =>
    if c = '"' then
      match rest with
      | [] => some ([], rest)
      | c2 :: rest2 =>
        if c2 = '"' then
          match parseQuoted rest2 with
          | some (f, r) => some ('"' :: f, r)
          | none => none
        else some ([], rest)
    else
      match parseQuoted rest with
      | some (f, r) => some (c :: f, r)
      | none => none

/-- Modelled from the spec: one row of three quoted, comma-separated
fields. -/
def parseRow (l : Str) : Option (Triple × Str) :=
  match l with
  | '"' :: l1 =>
    match parseQuoted l1 with
    | some (fname, ',' :: '"' :: l2) =>
      match parseQuoted l2 with
      | some (date, ',' :: '"' :: l3) =>
        match parseQuoted l3 with
        | some (line, rest) => some ((fname, date, line), rest)
        | none => none
      | _ => none
    | _ => none
  | _ => none

/-- Modelled from the spec: the newline-separated sequence of rows after
the header ('fuel' bounds the recursion; `parseCsv` supplies enough). -/
def parseRows : Nat → Str → Option (List Triple)
  | 0, _ => none
  | _ + 1, [] => some []
  | fuel + 1, l =>
    match parseRow l with
    | some (t, []) => some [t]
    | some (t, '\n' :: rest) =>
      match parseRows fuel rest with
      | some ts => some (t :: ts)
      | none => none
    | _ => none

/-- Drop an expected exact marker from the front of the input. -/
def dropExact : Str → Str → Option Str
  | [], l => some l
  | _ :: _, [] => none
  | e :: es, c :: cs => if e = c then dropExact es cs else none

/-- Modelled from the spec: the full CSV re-parser — the exact header row,
then the data rows under the doubled-quote rule. -/
def parseCsv (l : Str) : Option (List Triple) :=
  match dropExact KeywordTool.csvHeader l with
  | some body => parseRows (body.length + 1) body
  | none => none

end CsvReparse

namespace VersionTool

mutual
/-- A JSON value, as produced by `JSON.parse` (numbers idealized as
integers; no claim under study depends on float semantics). -/
inductive JsonVal where
  | jnull
  | jbool (b : Bool)
  | jnum (n : Int)
  | jstr (s : Str)
  | jarr (xs : JsonArr)
  | jobj (fields : JsonObj)
deriving DecidableEq, Repr

inductive JsonArr where
  | nil
  | cons (v : JsonVal) (rest : JsonArr)
deriving DecidableEq, Repr

inductive JsonObj where
  | nil
  | cons (key : Str) (v : JsonVal) (rest : JsonObj)
deriving DecidableEq, Repr
end

/-- JavaScript truthiness of a JSON value (`NaN`, absent from the integer
idealization, is the one falsy number not represented). -/
def jsTruthy : JsonVal → Bool
  | .jnull => false
  | .jbool b => b
  | .jnum n => n ≠ 0
  | .jstr s => s ≠ []
  | .jarr _ => true
  | .jobj _ => true

/-- Own-property lookup in a parsed JSON object; `JSON.parse` keeps the
last of duplicate keys, so later fields win. -/
def lookupField : JsonObj → Str → Option JsonVal
  | .nil, _ => none
  | .cons k v rest, key =>
    match lookupField rest key with
    | some v' => some v'
    | none => if k = key then some v else none

/-- JavaScript property access `v[key]` on a parsed JSON value, as
own-property lookup: `undefined` (here `none`) on primitives and arrays for
the names used by the tool.  (Prototype-inherited names such as `toString`
are outside the model; access on `null`, which throws in JavaScript, is
only reachable inside the extractor's `try`, whose `catch` returns `null` —
the same `none` this model yields.) -/
def jsProp : JsonVal → Str → Option JsonVal
  | .jobj fields, key => lookupField fields key
  | _, _ => none

/-- Access `v[key]` where `v` may be `undefined`/absent. -/
def jsIndex : Option JsonVal → Str → Option JsonVal
  | some v, key => jsProp v key
  | none, _ => none

/-- Truthiness of a possibly-absent value (`undefined` and `null` are
falsy). -/
def jsTruthyO : Option JsonVal → Bool
  | some v => jsTruthy v
  | none => false

/-- Source `extractPackageFromFile`, applied to the result of `JSON.parse` on the
file content (`none` when parsing threw): return
`packageJson.dependencies[packageName]` when `dependencies` and that entry
are both truthy, else `devDependencies[packageName]` under the same guard,
else `null`/`undefined` (both modelled as `none`). -/
def extractPackageFromFile (parsed : Option JsonVal) (packageName : Str) :
    Option JsonVal :=
  match parsed with
  | none => none
  | some packageJson =>
    let deps := jsProp packageJson "dependencies".toList
    let devDeps := jsProp packageJson "devDependencies".toList
    if jsTruthyO deps && jsTruthyO (jsIndex deps packageName) then
      jsIndex deps packageName
    else if jsTruthyO devDeps && jsTruthyO (jsIndex devDeps packageName) then
      jsIndex devDeps packageName
    else
      none

/-- A commit of the manifest's history, from
`git log --pretty=format:"%H %ad" --date=short`. -/
structure Commit where
  hash : Str
  date : Str
deriving DecidableEq, Repr

/-- One entry of `outputVersionLog`: `{ hash, date, packageVersion }`. -/
structure VEntry where
  hash : Str
  date : Str
  packageVersion : JsonVal
deriving DecidableEq, Repr

/-- The loop of `dedupeByVersion`, with the `seenVersions` set as a list.
(A JavaScript `Set` keys strings by value; version values are compared
structurally here — reference identity of non-primitive members is outside
the model.) -/
def dedupeGo : List VEntry → List JsonVal → List VEntry
  | [], _ => []
  | e :: es, seenVersions =>
    if e.packageVersion ∈ seenVersions then
      dedupeGo es seenVersions
    else
      e :: dedupeGo es (e.packageVersion :: seenVersions)

/-- Source `dedupeByVersion`: keep only the first entry bearing each distinct
version value. -/
def dedupeByVersion (output : List VEntry) : List VEntry :=
  dedupeGo output []

/-- The git executable and `JSON.parse` as seen by the version tracker:
stdout (or an error) of `git ls-files --error-unmatch <pattern>` run once
by `findAllPackageJSONFiles`, the success of the same check inside
`findPackageVersion`, stdout of `git log` per manifest, stdout of
`git show <hash>:<manifest>`, and the parse of a content string. -/
structure VRepo where
  lsFilesAll : Except Str Str
  lsFileOk : Str → Bool
  logOutput : Str → Except Str Str
  showFile : Str → Str → Except Str Str
  parseJson : Str → Option JsonVal

/-- Parsing of the `git log` output in `findPackageVersion`:
`gitLogOutput.trim().split('\n')`, then destructuring each line on spaces
into hash and date (a missing token destructures to `undefined`, modelled
as the empty string). -/
def parseCommits (raw : Str) : List Commit :=
  (splitOnChar '\n' (trimChars raw)).map (fun line =>
    let parts := splitOnChar ' ' line
    { hash := parts.headD [], date := (parts.drop 1).headD [] })

/-- The `for (const commit of commits)` loop of `findPackageVersion`: fetch
the content at each commit (a failed fetch is logged and skipped), extract
the package version, and push an entry when it is truthy. -/
def extractLoop (repo : VRepo) (packageJSON packageName : Str) :
    List Commit → List VEntry
  | [] => []
  | c :: cs =>
    let rest := extractLoop repo packageJSON packageName cs
    match repo.showFile c.hash packageJSON with
    | .error _ => rest
    | .ok fileContent =>
      match extractPackageFromFile (repo.parseJson fileContent) packageName with
      | some v => if jsTruthy v then ⟨c.hash, c.date, v⟩ :: rest else rest
      | none => rest

/-- Result of a function that may call `process.exit`. -/
inductive VResult (α : Type) where
  | exit (code : Nat)
  | ok (a : α)
deriving DecidableEq, Repr

/-- Source `findPackageVersion`: exit 1 when the manifest is not tracked or the
history query fails (outer catch); exit 0 after the notice when the log
output is blank; otherwise the deduplicated version history. -/
def findPackageVersion (repo : VRepo) (packageJSON packageName : Str) :
    VResult (List VEntry) :=
  if repo.lsFileOk packageJSON then
    match repo.logOutput packageJSON with
    | .error _ => .exit 1
    | .ok gitLogOutput =>
      if trimChars gitLogOutput = [] then
        .exit 0
      else
        .ok (dedupeByVersion
          (extractLoop repo packageJSON packageName (parseCommits gitLogOutput)))
  else
    .exit 1

/-- The resolution path of `findAllPackageJSONFiles`:
`stdout.trim().split('\n')`. -/
def findAllPackageJSONFiles (stdout : Str) : List Str :=
  splitOnChar '\n' (trimChars stdout)

/-- One element of the report written by `main`. -/
structure OutEntry where
  packageJSON : Str
  history : List VEntry
deriving DecidableEq, Repr

/-- Observable outcome of a run of the version tracker: an unhandled
promise rejection, or termination with an exit code and the report written
to the output file (when `saveOutputToFile` was reached). -/
inductive RunOutcome where
  | rejected (msg : Str)
  | exited (code : Nat) (written : Option (List OutEntry))
deriving DecidableEq, Repr

/-- The `for (const packageJSON of packageJSONFiles)` loop of `main`,
followed by `saveOutputToFile`; a `process.exit` inside
`findPackageVersion` terminates the process before anything is written. -/
def mainLoop (repo : VRepo) (packageName : Str) :
    List Str → List OutEntry → RunOutcome
  | [], output => .exited 0 (some output)
  | m :: ms, output =>
    match findPackageVersion repo m packageName with
    | .exit code => .exited code none
    | .ok history => mainLoop repo packageName ms (output ++ [⟨m, history⟩])

/-- Source `main`: discover the manifests (a rejected discovery promise is
unhandled), take the exit-1 branch if the list is empty, then process each
manifest and write the report. -/
def mainModel (repo : VRepo) (packageName : Str) : RunOutcome :=
  match repo.lsFilesAll with
  | .error e => .rejected e
  | .ok stdout =>
    let packageJSONFiles := findAllPackageJSONFiles stdout
    if packageJSONFiles.length = 0 then
      .exited 1 none
    else
      mainLoop repo packageName packageJSONFiles []

end VersionTool

section Helpers

/-- An invariant preserved by every step of a fold is preserved by the
fold. -/
theorem foldl_inv {α β : Type} (P : β → Prop) (step : β → α → β)
    (h : ∀ b a, P b → P (step b a)) :
    ∀ (l : List α) (b : β), P b → P (l.foldl step b) := by
  intro l
  induction l with
  | nil => intro b hb; exact hb
  | cons a l ih => intro b hb; exact ih (step b a) (h b a hb)

/-- The function `splitOnChar` always returns at least one piece. -/
theorem splitOnChar_ne_nil (sep : Char) (l : Str) : splitOnChar sep l ≠ [] := by
  cases l with
  | nil => simp [splitOnChar]
  | cons c cs =>
    simp only [splitOnChar]
    cases splitOnChar sep cs with
    | nil => simp
    | cons grp rest =>
      by_cases h : c = sep <;> simp [h]

end Helpers

namespace KeywordTool

/-- Without `--dedupe`, the per-line step appends exactly one trimmed row
and leaves the map alone. -/
theorem foldl_stepLine_false (file date : Str) (lines : List Str) :
    ∀ acc : List ExtractionRecord × DedupMap,
      lines.foldl (fun a line => stepLine false file date line a) acc =
        (acc.1 ++ lines.map (fun l => ⟨file, date, trimChars l⟩), acc.2) := by
  induction lines with
  | nil => intro acc; simp
  | cons l ls ih =>
    intro acc
    rw [List.foldl_cons, ih]
    simp [stepLine]

/-- Without `--dedupe`, processing one file appends one row per keyword
line. -/
theorem processFile_false (repo : Repo) (keyword : Str) (c : Commit)
    (file : Str) (acc : List ExtractionRecord × DedupMap) :
    processFile repo keyword false c acc file =
      (acc.1 ++ (getKeywordLines repo c.hash file keyword).map
        (fun l => ⟨file, c.date, trimChars l⟩), acc.2) := by
  unfold processFile
  by_cases h : (getKeywordLines repo c.hash file keyword).length > 0
  · simp only [h, if_pos, foldl_stepLine_false]
  · have : getKeywordLines repo c.hash file keyword = [] := by
      cases hg : getKeywordLines repo c.hash file keyword with
      | nil => rfl
      | cons a l => rw [hg] at h; simp at h
    simp [this, h]

/-- Without `--dedupe`, processing one commit appends one row per keyword
line of each matched file. -/
theorem processCommit_false (repo : Repo) (keyword : Str) (c : Commit) :
    ∀ acc : List ExtractionRecord × DedupMap,
      processCommit repo keyword false acc c =
        (acc.1 ++ (getFilesInCommit repo c.hash).flatMap
          (fun file => (getKeywordLines repo c.hash file keyword).map
            (fun l => ⟨file, c.date, trimChars l⟩)), acc.2) := by
  unfold processCommit
  generalize getFilesInCommit repo c.hash = files
  induction files with
  | nil => intro acc; simp
  | cons f fs ih =>
    intro acc
    rw [List.foldl_cons, ih, processFile_false]
    simp

/-- Without `--dedupe`, the whole run produces exactly the concatenation of
all matched files' keyword lines, trimmed, in traversal order. -/
theorem processCommitsAux_false (repo : Repo) (keyword : Str) :
    ∀ (commits : List Commit) (acc : List ExtractionRecord × DedupMap),
      commits.foldl (processCommit repo keyword false) acc =
        (acc.1 ++ commits.flatMap
          (fun c => (getFilesInCommit repo c.hash).flatMap
            (fun file => (getKeywordLines repo c.hash file keyword).map
              (fun l => ⟨file, c.date, trimChars l⟩))), acc.2) := by
  intro commits
  induction commits with
  | nil => intro acc; simp
  | cons c cs ih =>
    intro acc
    rw [List.foldl_cons, processCommit_false, ih]
    simp

end KeywordTool

/-- Claim C3 — for every non-dedup run of the keyword tracker, the emitted
records are exactly, in order, one record per keyword-containing line of
each (commit, matched file) pair, carrying the trimmed line; in particular
the number of emitted records is the sum, over all (commit, matched file)
pairs, of the number of lines of that file's content at that commit that
contain the keyword as a case-sensitive literal substring. -/
theorem keyword_nondedupe_count (repo : KeywordTool.Repo)
    (commits : List KeywordTool.Commit) (keyword : Str) :
    KeywordTool.processCommits repo commits keyword false =
      commits.flatMap (fun c =>
        (KeywordTool.getFilesInCommit repo c.hash).flatMap (fun file =>
          (KeywordTool.getKeywordLines repo c.hash file keyword).map
            (fun l => ⟨file, c.date, trimChars l⟩))) ∧
    (KeywordTool.processCommits repo commits keyword false).length =
      (commits.map (fun c =>
        ((KeywordTool.getFilesInCommit repo c.hash).map (fun file =>
          (KeywordTool.getKeywordLines repo c.hash file keyword).length)).sum)).sum := by
  have h := KeywordTool.processCommitsAux_false repo keyword commits ([], [])
  constructor
  · show (KeywordTool.processCommitsAux repo commits keyword false).1 = _
    rw [KeywordTool.processCommitsAux, h]
    simp
  · show (KeywordTool.processCommitsAux repo commits keyword false).1.length = _
    rw [KeywordTool.processCommitsAux, h]
    simp [List.length_flatMap, Function.comp_def]

namespace KeywordTool

theorem mapGet_cons (p : Str × Str) (m : DedupMap) (f : Str) :
    mapGet (p :: m) f = if p.1 = f then some p.2 else mapGet m f := by
  by_cases h : p.1 = f <;> simp [mapGet, List.find?_cons, h]

theorem mapGet_map_update (m : DedupMap) (k v f : Str) :
    mapGet (m.map (fun p => if p.1 = k then (k, v) else p)) f =
      if f = k then (mapGet m k).map (fun _ => v) else mapGet m f := by
  induction m with
  | nil => by_cases h : f = k <;> simp [mapGet, h]
  | cons p m ih =>
    by_cases hp : p.1 = k
    · by_cases hf : f = k
      · subst hf; simp [hp, mapGet_cons, hp]
      · have hpf : ¬ p.1 = f := by rw [hp]; intro h; exact hf h.symm
        have hkf : ¬ k = f := fun h => hf h.symm
        simp [hp, mapGet_cons, hpf, hkf, ih, hf]
    · by_cases hf : f = k
      · subst hf
        have hpf : ¬ p.1 = f := hp
        simp [hp, mapGet_cons, hpf, ih]
      · simp only [List.map_cons, if_neg hp, mapGet_cons, ih, if_neg hf]

theorem mapGet_none_of_any_false (m : DedupMap) (k : Str)
    (h : m.any (fun p => p.1 = k) = false) : mapGet m k = none := by
  induction m with
  | nil => rfl
  | cons p m ih =>
    simp only [List.any_cons, Bool.or_eq_false_iff] at h
    have hp : ¬ p.1 = k := by
      intro hk
      rw [hk] at h
      simp at h
    rw [mapGet_cons, if_neg hp]
    exact ih h.2

theorem mapGet_isSome_of_any_true (m : DedupMap) (k : Str)
    (h : m.any (fun p => p.1 = k) = true) : ∃ w, mapGet m k = some w := by
  induction m with
  | nil => simp at h
  | cons p m ih =>
    by_cases hp : p.1 = k
    · exact ⟨p.2, by rw [mapGet_cons, if_pos hp]⟩
    · simp only [List.any_cons, Bool.or_eq_true_iff] at h
      have h' : m.any (fun p => p.1 = k) = true := by
        rcases h with h | h
        · exact absurd (of_decide_eq_true h) hp
        · exact h
      obtain ⟨w, hw⟩ := ih h'
      exact ⟨w, by rw [mapGet_cons, if_neg hp]; exact hw⟩

theorem mapGet_append_single (m : DedupMap) (k v f : Str) :
    mapGet (m ++ [(k, v)]) f =
      match mapGet m f with
      | some w => some w
      | none => if k = f then some v else none := by
  induction m with
  | nil => by_cases h : k = f <;> simp [mapGet, List.find?, h]
  | cons p m ih =>
    by_cases hp : p.1 = f
    · simp [mapGet_cons, hp]
    · simp only [List.cons_append, mapGet_cons, if_neg hp, ih]

/-- After `Map.set`, `Map.get`: the set key reads back the new value, every
other key is untouched. -/
theorem mapGet_mapSet (m : DedupMap) (k v f : Str) :
    mapGet (mapSet m k v) f = if f = k then some v else mapGet m f := by
  unfold mapSet
  by_cases ha : m.any (fun p => p.1 = k) = true
  · rw [if_pos ha, mapGet_map_update]
    by_cases hf : f = k
    · obtain ⟨w, hw⟩ := mapGet_isSome_of_any_true m k ha
      simp [hf, hw]
    · simp [hf]
  · have ha' : m.any (fun p => p.1 = k) = false := by
      cases hb : m.any (fun p => p.1 = k)
      · rfl
      · exact absurd hb ha
    rw [if_neg ha, mapGet_append_single]
    by_cases hf : f = k
    · subst hf
      rw [mapGet_none_of_any_false m f ha']
    · have hkf : ¬ k = f := fun h => hf h.symm
      cases hm : mapGet m f <;> simp [hkf, hf]

/-- The trimmed lines recorded for one file, in emission order. -/
def recordsFor (rs : List ExtractionRecord) (f : Str) : List Str :=
  (rs.filter (fun r => r.filename = f)).map (fun r => r.line)

theorem recordsFor_append (rs : List ExtractionRecord) (r : ExtractionRecord)
    (f : Str) :
    recordsFor (rs ++ [r]) f =
      recordsFor rs f ++ if r.filename = f then [r.line] else [] := by
  unfold recordsFor
  rw [List.filter_append, List.map_append]
  by_cases h : r.filename = f <;> simp [h]

/-- The dedup invariant: for every file, the map holds exactly the last
recorded line, and no two adjacent recorded lines are equal. -/
def DedupInv (acc : List ExtractionRecord × DedupMap) : Prop :=
  ∀ f, mapGet acc.2 f = (recordsFor acc.1 f).getLast? ∧
    List.Chain' (fun a b => a ≠ b) (recordsFor acc.1 f)

/-- When the trimmed line equals the file's last recorded value, the dedup
step skips it, leaving both the results and the map untouched. -/
theorem stepLine_skip (file date line : Str)
    (acc : List ExtractionRecord × DedupMap)
    (h : mapGet acc.2 file = some (trimChars line)) :
    stepLine true file date line acc = acc := by
  simp [stepLine, h]

/-- When the trimmed line differs from the file's last recorded value, the
dedup step emits a record and updates the map to the new value. -/
theorem stepLine_emit (file date line : Str)
    (acc : List ExtractionRecord × DedupMap)
    (h : ¬ mapGet acc.2 file = some (trimChars line)) :
    stepLine true file date line acc =
      (acc.1 ++ [⟨file, date, trimChars line⟩],
       mapSet acc.2 file (trimChars line)) := by
  simp [stepLine, h]

theorem stepLine_dedupe_inv (file date line : Str)
    (acc : List ExtractionRecord × DedupMap) (h : DedupInv acc) :
    DedupInv (stepLine true file date line acc) := by
  by_cases hskip : mapGet acc.2 file = some (trimChars line)
  · rw [stepLine_skip file date line acc hskip]
    exact h
  · rw [stepLine_emit file date line acc hskip]
    intro f
    show mapGet (mapSet acc.2 file (trimChars line)) f = _ ∧ _
    rw [mapGet_mapSet, recordsFor_append]
    by_cases hf : f = file
    · subst hf
      rw [if_pos rfl,
        if_pos (show (⟨f, date, trimChars line⟩ :
          ExtractionRecord).filename = f from rfl)]
      constructor
      · simp
      · rw [List.chain'_append]
        refine ⟨(h f).2, List.chain'_singleton _, ?_⟩
        intro x hx y hy
        have hyt : trimChars line = y := by simpa using hy
        rw [← hyt]
        intro hxy
        apply hskip
        have hlast : mapGet acc.2 f = (recordsFor acc.1 f).getLast? := (h f).1
        have hx' : (recordsFor acc.1 f).getLast? = some x := hx
        rw [hlast, hx', hxy]
    · have hrf : ¬ (⟨file, date, trimChars line⟩ :
        ExtractionRecord).filename = f := fun hc => hf hc.symm
      rw [if_neg hf, if_neg hrf, List.append_nil]
      exact h f

theorem processCommitsAux_dedupe_inv (repo : Repo) (commits : List Commit)
    (keyword : Str) :
    DedupInv (processCommitsAux repo commits keyword true) := by
  apply foldl_inv DedupInv
  · intro b c hb
    apply foldl_inv DedupInv
    · intro b' file hb'
      unfold processFile
      by_cases hl : (getKeywordLines repo c.hash file keyword).length > 0
      · rw [if_pos hl]
        apply foldl_inv DedupInv
        · intro b'' l hb''
          exact stepLine_dedupe_inv file c.date l b'' hb''
        · exact hb'
      · rw [if_neg hl]
        exact hb'
    · exact hb
  · intro f
    constructor
    · rfl
    · exact List.chain'_nil

end KeywordTool

/-- Claim C1 — for every dedup run of the keyword tracker and any single
file: no two chronologically-adjacent emitted records for that file carry
identical trimmed line text; the per-line step always emits a record (and
records the value) when the trimmed line differs from the file's last
recorded value, and skips the line without updating the dedup state when it
is identical to the last recorded value. -/
theorem keyword_dedupe_invariant (repo : KeywordTool.Repo)
    (commits : List KeywordTool.Commit) (keyword : Str) :
    (∀ f, List.Chain' (fun a b => a ≠ b)
        (KeywordTool.recordsFor
          (KeywordTool.processCommits repo commits keyword true) f)) ∧
    (∀ (file date line : Str)
        (acc : List KeywordTool.ExtractionRecord × KeywordTool.DedupMap),
        KeywordTool.mapGet acc.2 file = some (trimChars line) →
        KeywordTool.stepLine true file date line acc = acc) ∧
    (∀ (file date line : Str)
        (acc : List KeywordTool.ExtractionRecord × KeywordTool.DedupMap),
        KeywordTool.mapGet acc.2 file ≠ some (trimChars line) →
        KeywordTool.stepLine true file date line acc =
          (acc.1 ++ [⟨file, date, trimChars line⟩],
           KeywordTool.mapSet acc.2 file (trimChars line))) := by
  refine ⟨?_, ?_, ?_⟩
  · intro f
    exact (KeywordTool.processCommitsAux_dedupe_inv repo commits keyword f).2
  · intro file date line acc h
    simp [KeywordTool.stepLine, h]
  · intro file date line acc h
    simp [KeywordTool.stepLine, h]

/-- Concrete instantiation of the C1 theorem: a three-commit history whose
keyword line repeats once and then changes yields adjacent-distinct
records, a repeated line is skipped without touching the map, and a new
line is emitted. -/
theorem keyword_dedupe_invariant_witness :
    List.Chain' (fun a b => a ≠ b)
      (KeywordTool.recordsFor
        (KeywordTool.processCommits
          { diffTree := fun _ => .ok "p.json".toList
            showFile := fun h _ =>
              if h = "h3".toList then .ok "\"lodash\": \"^4.1.0\"".toList
              else .ok "\"lodash\": \"^4.0.0\"".toList
            matchesPattern := fun f => f = "p.json".toList }
          [⟨"h1".toList, "d1".toList⟩, ⟨"h2".toList, "d2".toList⟩,
           ⟨"h3".toList, "d3".toList⟩]
          "lodash".toList true) "p.json".toList) ∧
    KeywordTool.stepLine true "f".toList "d".toList " v ".toList
        ([], [("f".toList, "v".toList)]) = ([], [("f".toList, "v".toList)]) ∧
    KeywordTool.stepLine true "f".toList "d".toList "w".toList
        ([], [("f".toList, "v".toList)]) =
      ([⟨"f".toList, "d".toList, "w".toList⟩],
       KeywordTool.mapSet [("f".toList, "v".toList)] "f".toList "w".toList) := by
  refine ⟨(keyword_dedupe_invariant _ _ _).1 _, ?_, ?_⟩
  · exact (keyword_dedupe_invariant
      { diffTree := fun _ => .ok "p.json".toList
        showFile := fun _ _ => .ok [], matchesPattern := fun _ => false }
      [] []).2.1 _ _ _ _ (by decide)
  · exact (keyword_dedupe_invariant
      { diffTree := fun _ => .ok "p.json".toList
        showFile := fun _ _ => .ok [], matchesPattern := fun _ => false }
      [] []).2.2 _ _ _ _ (by decide)

section AssocLemmas

/-- First-match association lookup (the shape shared by `mapGet` and
`lookupGroup`). -/
def assocGet {β : Type} (m : List (Str × β)) (k : Str) : Option β :=
  (m.find? (fun p => p.1 = k)).map (fun p => p.2)

theorem assocGet_cons {β : Type} (p : Str × β) (m : List (Str × β)) (f : Str) :
    assocGet (p :: m) f = if p.1 = f then some p.2 else assocGet m f := by
  by_cases h : p.1 = f <;> simp [assocGet, List.find?_cons, h]

theorem assocGet_map_value {β : Type} (g : β → β) (m : List (Str × β))
    (k f : Str) :
    assocGet (m.map (fun p => if p.1 = k then (p.1, g p.2) else p)) f =
      if f = k then (assocGet m k).map g else assocGet m f := by
  induction m with
  | nil => by_cases h : f = k <;> simp [assocGet, h]
  | cons p m ih =>
    by_cases hp : p.1 = k
    · by_cases hf : f = k
      · subst hf; simp [hp, assocGet_cons]
      · have hpf : ¬ p.1 = f := by rw [hp]; intro h; exact hf h.symm
        have hkf : ¬ k = f := fun h => hf h.symm
        simp [hp, assocGet_cons, hpf, hkf, ih, hf]
    · by_cases hf : f = k
      · subst hf
        simp [hp, assocGet_cons, ih]
      · simp only [List.map_cons, if_neg hp, assocGet_cons, ih, if_neg hf]

theorem assocGet_append_single {β : Type} (m : List (Str × β)) (k : Str)
    (v : β) (f : Str) :
    assocGet (m ++ [(k, v)]) f =
      match assocGet m f with
      | some w => some w
      | none => if k = f then some v else none := by
  induction m with
  | nil => by_cases h : k = f <;> simp [assocGet, List.find?, h]
  | cons p m ih =>
    by_cases hp : p.1 = f
    · simp [assocGet_cons, hp]
    · simp only [List.cons_append, assocGet_cons, if_neg hp, ih]

theorem assocGet_none_of_any_false {β : Type} (m : List (Str × β)) (k : Str)
    (h : m.any (fun p => p.1 = k) = false) : assocGet m k = none := by
  induction m with
  | nil => rfl
  | cons p m ih =>
    simp only [List.any_cons, Bool.or_eq_false_iff] at h
    have hp : ¬ p.1 = k := of_decide_eq_false h.1
    rw [assocGet_cons, if_neg hp]
    exact ih h.2

theorem assocGet_isSome_of_any_true {β : Type} (m : List (Str × β)) (k : Str)
    (h : m.any (fun p => p.1 = k) = true) : ∃ w, assocGet m k = some w := by
  induction m with
  | nil => exact Bool.noConfusion h
  | cons p m ih =>
    by_cases hp : p.1 = k
    · exact ⟨p.2, by rw [assocGet_cons, if_pos hp]⟩
    · simp only [List.any_cons, Bool.or_eq_true_iff] at h
      have h' : m.any (fun p => p.1 = k) = true := by
        rcases h with h | h
        · exact absurd (of_decide_eq_true h) hp
        · exact h
      obtain ⟨w, hw⟩ := ih h'
      exact ⟨w, by rw [assocGet_cons, if_neg hp]; exact hw⟩

theorem assocGet_eq_none_iff {β : Type} (m : List (Str × β)) (k : Str) :
    assocGet m k = none ↔ k ∉ m.map (fun p => p.1) := by
  induction m with
  | nil =>
    constructor
    · intro _ h
      exact absurd h (List.not_mem_nil k)
    · intro _
      rfl
  | cons p m ih =>
    rw [assocGet_cons, List.map_cons, List.mem_cons]
    by_cases hp : p.1 = k
    · rw [if_pos hp]
      constructor
      · intro h
        exact Option.noConfusion h
      · intro h
        exact absurd (Or.inl hp.symm) h
    · rw [if_neg hp, ih]
      constructor
      · intro h hc
        rcases hc with hc | hc
        · exact hp hc.symm
        · exact h hc
      · intro h hc
        exact h (Or.inr hc)

end AssocLemmas

namespace KeywordTool

/-- The `{date, line}` entries of one file, in extraction order. -/
def entriesFor (results : List ExtractionRecord) (f : Str) : List (Str × Str) :=
  (results.filter (fun r => r.filename = f)).map (fun r => (r.date, r.line))

theorem lookupGroup_eq_assocGet (m : List (Str × List (Str × Str))) (f : Str) :
    lookupGroup m f = assocGet m f := rfl

/-- Effect of one grouping step on a later lookup. -/
theorem lookupGroup_groupStep (acc : List (Str × List (Str × Str)))
    (r : ExtractionRecord) (f : Str) :
    lookupGroup (groupStep acc r) f =
      if r.filename = f then
        match lookupGroup acc f with
        | some l => some (l ++ [(r.date, r.line)])
        | none => some [(r.date, r.line)]
      else lookupGroup acc f := by
  unfold groupStep
  simp only [lookupGroup_eq_assocGet]
  by_cases ha : acc.any (fun p => p.1 = r.filename) = true
  · rw [if_pos ha]
    have hmap : (acc.map fun p =>
        if p.1 = r.filename then (p.1, p.2 ++ [(r.date, r.line)]) else p) =
        acc.map fun p =>
        if p.1 = r.filename then (r.filename, p.2 ++ [(r.date, r.line)]) else p := by
      apply List.map_congr_left
      intro p _
      by_cases hp : p.1 = r.filename
      · simp [hp]
      · simp [hp]
    rw [← hmap] at *
    rw [assocGet_map_value (fun l => l ++ [(r.date, r.line)]) acc r.filename f]
    by_cases hf : r.filename = f
    · subst hf
      obtain ⟨w, hw⟩ := assocGet_isSome_of_any_true acc r.filename ha
      simp [hw]
    · have hf' : ¬ f = r.filename := fun h => hf h.symm
      simp [hf, hf']
  · have ha' : acc.any (fun p => p.1 = r.filename) = false := by
      cases hb : acc.any (fun p => p.1 = r.filename)
      · rfl
      · exact absurd hb ha
    rw [if_neg ha, assocGet_append_single]
    by_cases hf : r.filename = f
    · subst hf
      rw [assocGet_none_of_any_false acc r.filename ha']
    · have hf' : ¬ r.filename = f := hf
      cases hm : assocGet acc f <;> simp [hf, hf']

/-- Folding the grouping step extends each filename's entry list in
order. -/
theorem lookupGroup_foldl (results : List ExtractionRecord) :
    ∀ (acc : List (Str × List (Str × Str))) (f : Str),
      lookupGroup (results.foldl groupStep acc) f =
        match lookupGroup acc f with
        | some l => some (l ++ entriesFor results f)
        | none =>
          if f ∈ results.map (fun r => r.filename)
          then some (entriesFor results f) else none := by
  induction results with
  | nil =>
    intro acc f
    cases hm : lookupGroup acc f <;> simp [entriesFor, hm]
  | cons r rs ih =>
    intro acc f
    rw [List.foldl_cons, ih, lookupGroup_groupStep]
    by_cases hf : r.filename = f
    · have hmem : f ∈ (r :: rs).map (fun r => r.filename) := by
        simp [hf]
      have hent : entriesFor (r :: rs) f = (r.date, r.line) :: entriesFor rs f := by
        simp [entriesFor, List.filter_cons, hf]
      rw [if_pos hf, hent, if_pos hmem]
      cases hm : lookupGroup acc f <;> simp
    · have hent : entriesFor (r :: rs) f = entriesFor rs f := by
        simp [entriesFor, List.filter_cons, hf]
      have hmem : (f ∈ (r :: rs).map (fun r => r.filename)) ↔
          (f ∈ rs.map (fun r => r.filename)) := by
        simp only [List.map_cons, List.mem_cons]
        constructor
        · rintro (h | h)
          · exact absurd h.symm hf
          · exact h
        · exact fun h => Or.inr h
      rw [if_neg hf, hent]
      cases hm : lookupGroup acc f
      · simp only [hm]
        by_cases h2 : f ∈ rs.map (fun r => r.filename)
        · rw [if_pos h2, if_pos (hmem.mpr h2)]
        · rw [if_neg h2, if_neg (fun hc => h2 (hmem.mp hc))]
      · simp [hm]

end KeywordTool

/-- Claim C6 — the grouped JSON object maps exactly the distinct filenames
of the records to their `{date, line}` entries in extraction order: looking
up any filename that occurs among the records yields that file's entries in
the original order, any other name is absent, and the object's key set is
exactly the set of distinct filename values. -/
theorem json_grouping (results : List KeywordTool.ExtractionRecord) (f : Str) :
    KeywordTool.lookupGroup (KeywordTool.groupByFilename results) f =
      (if f ∈ results.map (fun r => r.filename)
       then some (KeywordTool.entriesFor results f) else none) ∧
    (f ∈ (KeywordTool.groupByFilename results).map (fun p => p.1) ↔
      f ∈ results.map (fun r => r.filename)) := by
  have h := KeywordTool.lookupGroup_foldl results [] f
  have hnil : KeywordTool.lookupGroup [] f = none := rfl
  rw [hnil] at h
  have h1 : KeywordTool.lookupGroup (KeywordTool.groupByFilename results) f =
      (if f ∈ results.map (fun r => r.filename)
       then some (KeywordTool.entriesFor results f) else none) := h
  refine ⟨h1, ?_⟩
  constructor
  · intro hk
    by_contra hmem
    rw [if_neg hmem] at h1
    rw [KeywordTool.lookupGroup_eq_assocGet, assocGet_eq_none_iff] at h1
    exact h1 hk
  · intro hmem
    by_contra hk
    rw [if_pos hmem] at h1
    rw [KeywordTool.lookupGroup_eq_assocGet] at h1
    have : assocGet (KeywordTool.groupByFilename results) f = none :=
      (assocGet_eq_none_iff _ _).mpr hk
    rw [this] at h1
    exact Option.noConfusion h1

namespace VersionTool

theorem dedupeGo_not_mem_seen (l : List VEntry) :
    ∀ (seen : List JsonVal) (v : JsonVal),
      v ∈ (dedupeGo l seen).map (fun e => e.packageVersion) → v ∉ seen := by
  induction l with
  | nil =>
    intro seen v h
    exact absurd h (by simp [dedupeGo])
  | cons e es ih =>
    intro seen v h
    by_cases he : e.packageVersion ∈ seen
    · rw [dedupeGo, if_pos he] at h
      exact ih seen v h
    · rw [dedupeGo, if_neg he, List.map_cons, List.mem_cons] at h
      rcases h with h | h
      · subst h
        exact he
      · intro hv
        exact ih _ v h (List.mem_cons_of_mem _ hv)

theorem dedupeGo_versions_nodup (l : List VEntry) :
    ∀ seen, ((dedupeGo l seen).map (fun e => e.packageVersion)).Nodup := by
  induction l with
  | nil =>
    intro seen
    simp [dedupeGo]
  | cons e es ih =>
    intro seen
    by_cases he : e.packageVersion ∈ seen
    · rw [dedupeGo, if_pos he]
      exact ih seen
    · rw [dedupeGo, if_neg he, List.map_cons]
      refine List.nodup_cons.mpr ⟨?_, ih _⟩
      intro hmem
      exact dedupeGo_not_mem_seen es _ _ hmem (List.mem_cons_self _ _)

theorem dedupeGo_mem_iff (l : List VEntry) :
    ∀ seen v, v ∈ (dedupeGo l seen).map (fun e => e.packageVersion) ↔
      (v ∈ l.map (fun e => e.packageVersion) ∧ v ∉ seen) := by
  induction l with
  | nil =>
    intro seen v
    simp [dedupeGo]
  | cons e es ih =>
    intro seen v
    by_cases he : e.packageVersion ∈ seen
    · rw [dedupeGo, if_pos he, ih, List.map_cons, List.mem_cons]
      constructor
      · rintro ⟨h1, h2⟩
        exact ⟨Or.inr h1, h2⟩
      · rintro ⟨h1 | h1, h2⟩
        · exact absurd (h1 ▸ he) h2
        · exact ⟨h1, h2⟩
    · rw [dedupeGo, if_neg he]
      simp only [List.map_cons, List.mem_cons, ih]
      constructor
      · rintro (h | ⟨h1, h2⟩)
        · exact ⟨Or.inl h, h ▸ he⟩
        · exact ⟨Or.inr h1, fun hv => h2 (Or.inr hv)⟩
      · rintro ⟨h1 | h1, h2⟩
        · exact Or.inl h1
        · by_cases hv : v = e.packageVersion
          · exact Or.inl hv
          · exact Or.inr ⟨h1, fun hc => hc.elim hv h2⟩

theorem dedupeGo_find_first (l : List VEntry) :
    ∀ seen e, e ∈ dedupeGo l seen →
      l.find? (fun x => x.packageVersion = e.packageVersion) = some e := by
  induction l with
  | nil =>
    intro seen e h
    exact absurd h (List.not_mem_nil e)
  | cons x es ih =>
    intro seen e h
    by_cases hx : x.packageVersion ∈ seen
    · rw [dedupeGo, if_pos hx] at h
      have hne : e.packageVersion ∉ seen :=
        dedupeGo_not_mem_seen es seen e.packageVersion
          (List.mem_map_of_mem (fun e => e.packageVersion) h)
      have hxe : ¬ (x.packageVersion = e.packageVersion) :=
        fun hc => hne (hc ▸ hx)
      rw [List.find?_cons_of_neg _ (by simpa using hxe)]
      exact ih seen e h
    · rw [dedupeGo, if_neg hx, List.mem_cons] at h
      rcases h with h | h
      · subst h
        rw [List.find?_cons_of_pos _ (by simp)]
      · have hne : e.packageVersion ∉ x.packageVersion :: seen :=
          dedupeGo_not_mem_seen es _ e.packageVersion
            (List.mem_map_of_mem (fun e => e.packageVersion) h)
        have hxe : ¬ (x.packageVersion = e.packageVersion) := by
          intro hc
          exact hne (by rw [← hc]; exact List.mem_cons_self _ _)
        rw [List.find?_cons_of_neg _ (by simpa using hxe)]
        exact ih _ e h

end VersionTool

/-- Claim C2 — the version tracker's emitted history for one manifest has
pairwise-distinct version values; its version values are exactly the
distinct values observed (extracted) across the manifest's commit history;
each emitted record is the first entry, in traversal order, bearing its
version value (so it keeps that first commit's hash and date); and when the
manifest is tracked and its log is nonblank, `findPackageVersion` emits
exactly this deduplicated history. -/
theorem version_history_dedup (repo : VersionTool.VRepo)
    (packageJSON packageName : Str) (commits : List VersionTool.Commit)
    (gitLogOutput : Str) :
    ((VersionTool.dedupeByVersion
        (VersionTool.extractLoop repo packageJSON packageName commits)).map
        (fun e => e.packageVersion)).Nodup ∧
    (∀ v, v ∈ (VersionTool.dedupeByVersion
        (VersionTool.extractLoop repo packageJSON packageName commits)).map
        (fun e => e.packageVersion) ↔
      v ∈ (VersionTool.extractLoop repo packageJSON packageName commits).map
        (fun e => e.packageVersion)) ∧
    (∀ e ∈ VersionTool.dedupeByVersion
        (VersionTool.extractLoop repo packageJSON packageName commits),
      (VersionTool.extractLoop repo packageJSON packageName commits).find?
        (fun x => x.packageVersion = e.packageVersion) = some e) ∧
    (repo.lsFileOk packageJSON = true →
      repo.logOutput packageJSON = .ok gitLogOutput →
      trimChars gitLogOutput ≠ [] →
      VersionTool.findPackageVersion repo packageJSON packageName =
        .ok (VersionTool.dedupeByVersion
          (VersionTool.extractLoop repo packageJSON packageName
            (VersionTool.parseCommits gitLogOutput)))) := by
  refine ⟨VersionTool.dedupeGo_versions_nodup _ [], ?_, ?_, ?_⟩
  · intro v
    rw [VersionTool.dedupeByVersion, VersionTool.dedupeGo_mem_iff]
    simp
  · intro e he
    exact VersionTool.dedupeGo_find_first _ [] e he
  · intro hok hlog hne
    simp [VersionTool.findPackageVersion, hok, hlog, hne]

/-- Concrete instantiation of the C2 theorem: a three-commit history with
versions `^4.0.0`, `^4.0.0`, `^4.1.0` (newest first) yields the two
distinct versions, each tagged with its first commit in traversal order. -/
theorem version_history_dedup_witness :
    (∀ e ∈ VersionTool.dedupeByVersion
        (VersionTool.extractLoop
          { lsFilesAll := .ok "package.json".toList
            lsFileOk := fun _ => true
            logOutput := fun _ =>
              .ok "h3 2024-03-01\nh2 2024-02-01\nh1 2024-01-01".toList
            showFile := fun h _ => .ok h
            parseJson := fun s =>
              some (.jobj (.cons "dependencies".toList
                (.jobj (.cons "lodash".toList
                  (.jstr (if s = "h1".toList then "^4.0.0".toList
                    else if s = "h2".toList then "^4.0.0".toList
                    else "^4.1.0".toList)) .nil)) .nil)) }
          "package.json".toList "lodash".toList
          (VersionTool.parseCommits
            "h3 2024-03-01\nh2 2024-02-01\nh1 2024-01-01".toList)),
      (VersionTool.extractLoop
          { lsFilesAll := .ok "package.json".toList
            lsFileOk := fun _ => true
            logOutput := fun _ =>
              .ok "h3 2024-03-01\nh2 2024-02-01\nh1 2024-01-01".toList
            showFile := fun h _ => .ok h
            parseJson := fun s =>
              some (.jobj (.cons "dependencies".toList
                (.jobj (.cons "lodash".toList
                  (.jstr (if s = "h1".toList then "^4.0.0".toList
                    else if s = "h2".toList then "^4.0.0".toList
                    else "^4.1.0".toList)) .nil)) .nil)) }
          "package.json".toList "lodash".toList
          (VersionTool.parseCommits
            "h3 2024-03-01\nh2 2024-02-01\nh1 2024-01-01".toList)).find?
        (fun x => x.packageVersion = e.packageVersion) = some e) ∧
    VersionTool.findPackageVersion
        { lsFilesAll := .ok "package.json".toList
          lsFileOk := fun _ => true
          logOutput := fun _ =>
            .ok "h3 2024-03-01\nh2 2024-02-01\nh1 2024-01-01".toList
          showFile := fun h _ => .ok h
          parseJson := fun s =>
            some (.jobj (.cons "dependencies".toList
              (.jobj (.cons "lodash".toList
                (.jstr (if s = "h1".toList then "^4.0.0".toList
                  else if s = "h2".toList then "^4.0.0".toList
                  else "^4.1.0".toList)) .nil)) .nil)) }
        "package.json".toList "lodash".toList =
      .ok (VersionTool.dedupeByVersion
        (VersionTool.extractLoop
          { lsFilesAll := .ok "package.json".toList
            lsFileOk := fun _ => true
            logOutput := fun _ =>
              .ok "h3 2024-03-01\nh2 2024-02-01\nh1 2024-01-01".toList
            showFile := fun h _ => .ok h
            parseJson := fun s =>
              some (.jobj (.cons "dependencies".toList
                (.jobj (.cons "lodash".toList
                  (.jstr (if s = "h1".toList then "^4.0.0".toList
                    else if s = "h2".toList then "^4.0.0".toList
                    else "^4.1.0".toList)) .nil)) .nil)) }
          "package.json".toList "lodash".toList
          (VersionTool.parseCommits
            "h3 2024-03-01\nh2 2024-02-01\nh1 2024-01-01".toList))) :=
  ⟨(version_history_dedup _ "package.json".toList "lodash".toList _
      "h3 2024-03-01\nh2 2024-02-01\nh1 2024-01-01".toList).2.2.1,
   (version_history_dedup _ "package.json".toList "lodash".toList
      (VersionTool.parseCommits
        "h3 2024-03-01\nh2 2024-02-01\nh1 2024-01-01".toList)
      "h3 2024-03-01\nh2 2024-02-01\nh1 2024-01-01".toList).2.2.2
      rfl rfl (by decide)⟩

namespace VersionTool

/-- Modelled from the spec, amended: the binding of `name` inside a section
value, kept only when it is truthy (a present but falsy version — such as
the empty string — yields nothing). -/
def lookupTruthy : Option JsonVal → Str → Option JsonVal
  | some (.jobj fields), name =>
    match lookupField fields name with
    | some v => if jsTruthy v then some v else none
    | none => none
  | _, _ => none

/-- Modelled from the spec, amended: the first truthy binding among the
`dependencies` then `devDependencies` sections; nothing on parse failure
or when neither section holds a truthy binding. -/
def extractSpec (parsed : Option JsonVal) (packageName : Str) :
    Option JsonVal :=
  match parsed with
  | none => none
  | some j =>
    match lookupTruthy (jsProp j "dependencies".toList) packageName with
    | some v => some v
    | none => lookupTruthy (jsProp j "devDependencies".toList) packageName

/-- One section's guarded lookup in the source equals the spec-side truthy
lookup. -/
theorem extract_section_branch (sec : Option JsonVal) (name : Str)
    (E : Option JsonVal) :
    (if jsTruthyO sec && jsTruthyO (jsIndex sec name)
     then jsIndex sec name else E) =
      match lookupTruthy sec name with
      | some v => some v
      | none => E := by
  cases sec with
  | none => rfl
  | some v =>
    cases v with
    | jnull => rfl
    | jbool b => cases b <;> rfl
    | jnum n => simp [jsTruthyO, jsIndex, jsProp, lookupTruthy]
    | jstr s => simp [jsTruthyO, jsIndex, jsProp, lookupTruthy]
    | jarr xs => rfl
    | jobj fields =>
      show (if jsTruthyO (some (.jobj fields)) &&
          jsTruthyO (lookupField fields name) then lookupField fields name
        else E) = _
      have hobj : jsTruthyO (some (.jobj fields)) = true := rfl
      cases hw : lookupField fields name with
      | none =>
        simp only [lookupTruthy, hw, hobj, Bool.true_and]
        rfl
      | some w =>
        have hwt : jsTruthyO (some w) = jsTruthy w := rfl
        simp only [lookupTruthy, hw, hobj, Bool.true_and, hwt]
        by_cases ht : jsTruthy w = true
        · rw [if_pos ht, if_pos ht]
        · rw [if_neg ht, if_neg ht]

end VersionTool

/-- Claim C4, amended — the manifest-version extractor returns the version
bound to the package in `dependencies` provided that binding is truthy (in
particular, not the empty string); failing that, the truthy binding from
`devDependencies`; and nothing when the content fails to parse (which never
raises — the extractor is a total function) or when neither section has a
truthy binding for the package. -/
theorem manifest_extract_amended (parsed : Option VersionTool.JsonVal)
    (name : Str) :
    VersionTool.extractPackageFromFile parsed name =
      VersionTool.extractSpec parsed name ∧
    VersionTool.extractPackageFromFile none name = none := by
  refine ⟨?_, rfl⟩
  cases parsed with
  | none => rfl
  | some j =>
    show (if _ && _ then _ else if _ && _ then _ else none) = _
    rw [VersionTool.extract_section_branch, VersionTool.extract_section_branch]
    have hspec : VersionTool.extractSpec (some j) name =
        (match VersionTool.lookupTruthy
            (VersionTool.jsProp j "dependencies".toList) name with
         | some v => some v
         | none => VersionTool.lookupTruthy
            (VersionTool.jsProp j "devDependencies".toList) name) := rfl
    rw [hspec]
    cases VersionTool.lookupTruthy
        (VersionTool.jsProp j "dependencies".toList) name with
    | none =>
      cases VersionTool.lookupTruthy
          (VersionTool.jsProp j "devDependencies".toList) name <;> rfl
    | some v => rfl

/-- Counterexample to claim C4 as stated: in a manifest whose
`dependencies` section binds the package to the (falsy) empty string while
`devDependencies` binds it to `^1.0.0`, the package is present in the
`dependencies` section, yet the extractor does not return its bound value —
it returns the `devDependencies` version instead. -/
theorem manifest_extract_cex :
    VersionTool.lookupField
        (.cons "p".toList (.jstr []) .nil) "p".toList =
      some (.jstr []) ∧
    VersionTool.extractPackageFromFile
        (some (.jobj (.cons "dependencies".toList
          (.jobj (.cons "p".toList (.jstr []) .nil))
          (.cons "devDependencies".toList
            (.jobj (.cons "p".toList (.jstr "^1.0.0".toList) .nil)) .nil))))
        "p".toList ≠ some (.jstr []) ∧
    VersionTool.extractPackageFromFile
        (some (.jobj (.cons "dependencies".toList
          (.jobj (.cons "p".toList (.jstr []) .nil))
          (.cons "devDependencies".toList
            (.jobj (.cons "p".toList (.jstr "^1.0.0".toList) .nil)) .nil))))
        "p".toList = some (.jstr "^1.0.0".toList) := by
  refine ⟨by decide, by decide, by decide⟩

/-- Claim C8 — each per-unit failure contributes zero extraction records
and the run continues: a failed `diff-tree` yields no matched files and
leaves the accumulator of the commit loop unchanged, a failed `git show`
yields no keyword lines, a parse failure yields no version, and in the
version tracker a commit whose fetch or parse fails is skipped while the
remaining commits are still processed. -/
theorem per_unit_failures_recoverable :
    (∀ (repo : KeywordTool.Repo) (hash msg : Str),
        repo.diffTree hash = .error msg →
        KeywordTool.getFilesInCommit repo hash = []) ∧
    (∀ (repo : KeywordTool.Repo) (hash file keyword msg : Str),
        repo.showFile hash file = .error msg →
        KeywordTool.getKeywordLines repo hash file keyword = []) ∧
    (∀ (repo : KeywordTool.Repo) (keyword : Str) (dedupe : Bool)
        (c : KeywordTool.Commit) (msg : Str)
        (acc : List KeywordTool.ExtractionRecord × KeywordTool.DedupMap),
        repo.diffTree c.hash = .error msg →
        KeywordTool.processCommit repo keyword dedupe acc c = acc) ∧
    (∀ (repo : VersionTool.VRepo) (packageJSON packageName msg : Str)
        (c : VersionTool.Commit) (cs : List VersionTool.Commit),
        repo.showFile c.hash packageJSON = .error msg →
        VersionTool.extractLoop repo packageJSON packageName (c :: cs) =
          VersionTool.extractLoop repo packageJSON packageName cs) ∧
    (∀ (repo : VersionTool.VRepo) (packageJSON packageName content : Str)
        (c : VersionTool.Commit) (cs : List VersionTool.Commit),
        repo.showFile c.hash packageJSON = .ok content →
        repo.parseJson content = none →
        VersionTool.extractLoop repo packageJSON packageName (c :: cs) =
          VersionTool.extractLoop repo packageJSON packageName cs) := by
  refine ⟨?_, ?_, ?_, ?_, ?_⟩
  · intro repo hash msg h
    simp [KeywordTool.getFilesInCommit, h]
  · intro repo hash file keyword msg h
    simp [KeywordTool.getKeywordLines, h]
  · intro repo keyword dedupe c msg acc h
    have hfiles : KeywordTool.getFilesInCommit repo c.hash = [] := by
      simp [KeywordTool.getFilesInCommit, h]
    simp [KeywordTool.processCommit, hfiles]
  · intro repo packageJSON packageName msg c cs h
    simp [VersionTool.extractLoop, h]
  · intro repo packageJSON packageName content c cs h hp
    simp [VersionTool.extractLoop, h, hp, VersionTool.extractPackageFromFile]

/-- Concrete instantiation of the C8 theorem: a repository whose git
queries fail for commit `bad` contributes nothing for that commit yet the
remaining commits still produce their records. -/
theorem per_unit_failures_recoverable_witness :
    KeywordTool.getFilesInCommit
      { diffTree := fun _ => .error "fatal: bad object".toList
        showFile := fun _ _ => .ok []
        matchesPattern := fun _ => true } "bad".toList = [] ∧
    KeywordTool.getKeywordLines
      { diffTree := fun _ => .ok []
        showFile := fun _ _ => .error "fatal: path not in commit".toList
        matchesPattern := fun _ => true }
      "bad".toList "a.txt".toList "k".toList = [] ∧
    VersionTool.extractLoop
      { lsFilesAll := .ok []
        lsFileOk := fun _ => true
        logOutput := fun _ => .ok []
        showFile := fun h _ =>
          if h = "bad".toList then .error "fatal".toList else .ok "c".toList
        parseJson := fun _ =>
          some (.jobj (.cons "dependencies".toList
            (.jobj (.cons "p".toList (.jstr "1".toList) .nil)) .nil)) }
      "package.json".toList "p".toList
      [⟨"bad".toList, "d1".toList⟩, ⟨"h2".toList, "d2".toList⟩] =
    VersionTool.extractLoop
      { lsFilesAll := .ok []
        lsFileOk := fun _ => true
        logOutput := fun _ => .ok []
        showFile := fun h _ =>
          if h = "bad".toList then .error "fatal".toList else .ok "c".toList
        parseJson := fun _ =>
          some (.jobj (.cons "dependencies".toList
            (.jobj (.cons "p".toList (.jstr "1".toList) .nil)) .nil)) }
      "package.json".toList "p".toList [⟨"h2".toList, "d2".toList⟩] := by
  refine ⟨?_, ?_, ?_⟩
  · exact per_unit_failures_recoverable.1 _ "bad".toList
      "fatal: bad object".toList rfl
  · exact per_unit_failures_recoverable.2.1 _ "bad".toList "a.txt".toList
      "k".toList "fatal: path not in commit".toList rfl
  · exact per_unit_failures_recoverable.2.2.2.1 _ "package.json".toList
      "p".toList "fatal".toList ⟨"bad".toList, "d1".toList⟩
      [⟨"h2".toList, "d2".toList⟩] rfl

/-- Claim C9 — when the history query for a manifest returns a blank log,
the version tracker prints its notice and exits with code 0 from inside the
per-manifest extraction: nothing is written to the output file and the
remaining manifests are not processed. -/
theorem version_no_commits_exit (repo : VersionTool.VRepo)
    (packageName m logRaw : Str) (ms : List Str)
    (output : List VersionTool.OutEntry)
    (hok : repo.lsFileOk m = true)
    (hlog : repo.logOutput m = .ok logRaw)
    (hempty : trimChars logRaw = []) :
    VersionTool.findPackageVersion repo m packageName =
      .exit 0 ∧
    VersionTool.mainLoop repo packageName (m :: ms) output =
      .exited 0 none := by
  have h1 : VersionTool.findPackageVersion repo m packageName = .exit 0 := by
    simp [VersionTool.findPackageVersion, hok, hlog, hempty]
  exact ⟨h1, by simp [VersionTool.mainLoop, h1]⟩

/-- Concrete instantiation of the C9 theorem: with a whitespace-only log
for the first manifest, the run exits 0 before writing anything, even
though a second manifest was still pending. -/
theorem version_no_commits_exit_witness :
    VersionTool.findPackageVersion
      { lsFilesAll := .ok "a/package.json\nb/package.json".toList
        lsFileOk := fun _ => true
        logOutput := fun _ => .ok "  \n ".toList
        showFile := fun _ _ => .ok []
        parseJson := fun _ => none }
      "a/package.json".toList "lodash".toList = .exit 0 ∧
    VersionTool.mainLoop
      { lsFilesAll := .ok "a/package.json\nb/package.json".toList
        lsFileOk := fun _ => true
        logOutput := fun _ => .ok "  \n ".toList
        showFile := fun _ _ => .ok []
        parseJson := fun _ => none }
      "lodash".toList ["a/package.json".toList, "b/package.json".toList] [] =
      .exited 0 none :=
  version_no_commits_exit _ "lodash".toList "a/package.json".toList
    "  \n ".toList ["b/package.json".toList] [] rfl rfl (by decide)

/-- Claim C10 — manifest discovery splits the trimmed `ls-files` output on
newlines and therefore always yields at least one element, so the
`exit 1` branch of `main` guarded by an empty discovery list is
unreachable: whenever discovery resolves, `main` proceeds directly into the
per-manifest loop, and an untracked pattern surfaces as a rejected
discovery promise instead. -/
theorem discovery_never_empty (stdout : Str) (repo : VersionTool.VRepo)
    (packageName : Str) :
    VersionTool.findAllPackageJSONFiles stdout ≠ [] ∧
    (∀ out, repo.lsFilesAll = .ok out →
      VersionTool.mainModel repo packageName =
        VersionTool.mainLoop repo packageName
          (VersionTool.findAllPackageJSONFiles out) []) ∧
    (∀ msg, repo.lsFilesAll = .error msg →
      VersionTool.mainModel repo packageName = .rejected msg) := by
  refine ⟨splitOnChar_ne_nil _ _, ?_, ?_⟩
  · intro out hout
    have hne : VersionTool.findAllPackageJSONFiles out ≠ [] :=
      splitOnChar_ne_nil _ _
    have hlen : ¬ (VersionTool.findAllPackageJSONFiles out).length = 0 := by
      intro h
      exact hne (List.eq_nil_of_length_eq_zero h)
    simp [VersionTool.mainModel, hout, hlen]
  · intro msg hmsg
    simp [VersionTool.mainModel, hmsg]

/-- Concrete instantiation of the C10 theorem: discovery of an empty
stdout still yields one (empty) name, a resolving discovery enters the
loop, and an erroring discovery surfaces as a rejection. -/
theorem discovery_never_empty_witness :
    VersionTool.findAllPackageJSONFiles [] ≠ [] ∧
    VersionTool.mainModel
      { lsFilesAll := .ok "package.json".toList
        lsFileOk := fun _ => false
        logOutput := fun _ => .ok []
        showFile := fun _ _ => .ok []
        parseJson := fun _ => none } "p".toList =
      VersionTool.mainLoop
        { lsFilesAll := .ok "package.json".toList
          lsFileOk := fun _ => false
          logOutput := fun _ => .ok []
          showFile := fun _ _ => .ok []
          parseJson := fun _ => none } "p".toList
        (VersionTool.findAllPackageJSONFiles "package.json".toList) [] ∧
    VersionTool.mainModel
      { lsFilesAll := .error "error_unmatch".toList
        lsFileOk := fun _ => false
        logOutput := fun _ => .ok []
        showFile := fun _ _ => .ok []
        parseJson := fun _ => none } "p".toList =
      .rejected "error_unmatch".toList :=
  ⟨(discovery_never_empty []
      { lsFilesAll := .ok []
        lsFileOk := fun _ => false
        logOutput := fun _ => .ok []
        showFile := fun _ _ => .ok []
        parseJson := fun _ => none } "p".toList).1,
   (discovery_never_empty []
      { lsFilesAll := .ok "package.json".toList
        lsFileOk := fun _ => false
        logOutput := fun _ => .ok []
        showFile := fun _ _ => .ok []
        parseJson := fun _ => none } "p".toList).2.1
      "package.json".toList rfl,
   (discovery_never_empty []
      { lsFilesAll := .error "error_unmatch".toList
        lsFileOk := fun _ => false
        logOutput := fun _ => .ok []
        showFile := fun _ _ => .ok []
        parseJson := fun _ => none } "p".toList).2.2
      "error_unmatch".toList rfl⟩

namespace VersionTool

/-- If no commit of the manifest yields a version for the package, the
extraction loop collects nothing. -/
theorem extractLoop_nil_of_absent (repo : VRepo)
    (packageJSON packageName : Str) :
    ∀ (commits : List Commit),
      (∀ c ∈ commits, ∀ content, repo.showFile c.hash packageJSON = .ok content →
        extractPackageFromFile (repo.parseJson content) packageName = none) →
      extractLoop repo packageJSON packageName commits = [] := by
  intro commits
  induction commits with
  | nil =>
    intro _
    rfl
  | cons c cs ih =>
    intro h
    have hrest : extractLoop repo packageJSON packageName cs = [] :=
      ih (fun c' hc' => h c' (List.mem_cons_of_mem _ hc'))
    rw [extractLoop]
    cases hs : repo.showFile c.hash packageJSON with
    | error msg => exact hrest
    | ok content =>
      have hx := h c (List.mem_cons_self _ _) content hs
      simp only [hx, hrest]

/-- When every manifest's extraction succeeds, the main loop reaches
`saveOutputToFile` with one entry per manifest, in order. -/
theorem mainLoop_all_ok (repo : VRepo) (packageName : Str)
    (hist : Str → List VEntry) :
    ∀ (files : List Str) (output : List OutEntry),
      (∀ m ∈ files, findPackageVersion repo m packageName = .ok (hist m)) →
      mainLoop repo packageName files output =
        .exited 0 (some (output ++ files.map (fun m => ⟨m, hist m⟩))) := by
  intro files
  induction files with
  | nil =>
    intro output _
    simp [mainLoop]
  | cons m ms ih =>
    intro output h
    rw [mainLoop, h m (List.mem_cons_self _ _)]
    show mainLoop repo packageName ms (output ++ [⟨m, hist m⟩]) = _
    rw [show output ++ List.map (fun m => OutEntry.mk m (hist m)) (m :: ms) =
        (output ++ [OutEntry.mk m (hist m)]) ++
          List.map (fun m => OutEntry.mk m (hist m)) ms by simp]
    exact ih (output ++ [⟨m, hist m⟩])
      (fun m' hm' => h m' (List.mem_cons_of_mem _ hm'))

end VersionTool

/-- Claim C7 — when the version tracker is invoked for a package absent
from every historical revision of a tracked manifest with a nonblank
commit log (and every other discovered manifest also extracts
successfully), the run terminates with exit code 0 and the report written
to the output file contains an empty history array for that manifest. -/
theorem version_absent_package (repo : VersionTool.VRepo)
    (packageName stdout m₀ log₀ : Str)
    (hist : Str → List VersionTool.VEntry)
    (h1 : repo.lsFilesAll = .ok stdout)
    (h2 : ∀ m ∈ VersionTool.findAllPackageJSONFiles stdout,
        VersionTool.findPackageVersion repo m packageName = .ok (hist m))
    (hm : m₀ ∈ VersionTool.findAllPackageJSONFiles stdout)
    (hok : repo.lsFileOk m₀ = true)
    (hlog : repo.logOutput m₀ = .ok log₀)
    (hne : trimChars log₀ ≠ [])
    (habsent : ∀ c ∈ VersionTool.parseCommits log₀, ∀ content,
        repo.showFile c.hash m₀ = .ok content →
        VersionTool.extractPackageFromFile (repo.parseJson content)
          packageName = none) :
    VersionTool.mainModel repo packageName =
      .exited 0 (some ((VersionTool.findAllPackageJSONFiles stdout).map
        (fun m => ⟨m, hist m⟩))) ∧
    VersionTool.OutEntry.mk m₀ [] ∈
      (VersionTool.findAllPackageJSONFiles stdout).map
        (fun m => ⟨m, hist m⟩) := by
  have hempty : VersionTool.findPackageVersion repo m₀ packageName = .ok [] := by
    have hloop := VersionTool.extractLoop_nil_of_absent repo m₀ packageName
      (VersionTool.parseCommits log₀) habsent
    simp [VersionTool.findPackageVersion, hok, hlog, hne, hloop,
      VersionTool.dedupeByVersion, VersionTool.dedupeGo]
  have hh : hist m₀ = [] := by
    have := h2 m₀ hm
    rw [hempty] at this
    injection this with h
    exact h.symm
  constructor
  · have hlen : ¬ (VersionTool.findAllPackageJSONFiles stdout).length = 0 := by
      intro h
      rw [List.eq_nil_of_length_eq_zero h] at hm
      exact absurd hm (List.not_mem_nil m₀)
    rw [VersionTool.mainModel, h1]
    simp only [hlen, if_neg, ite_false]
    exact VersionTool.mainLoop_all_ok repo packageName hist _ [] h2
  · rw [← hh]
    exact List.mem_map_of_mem _ hm

/-- Concrete instantiation of the C7 theorem: a single tracked manifest
with one commit whose content does not mention the package yields a report
with an empty history and exit code 0. -/
theorem version_absent_package_witness :
    VersionTool.mainModel
      { lsFilesAll := .ok "package.json".toList
        lsFileOk := fun _ => true
        logOutput := fun _ => .ok "h1 2024-01-01".toList
        showFile := fun _ _ => .ok "notjson".toList
        parseJson := fun _ => none } "left-pad".toList =
      .exited 0 (some ((VersionTool.findAllPackageJSONFiles
        "package.json".toList).map (fun m => ⟨m, []⟩))) ∧
    VersionTool.OutEntry.mk "package.json".toList [] ∈
      (VersionTool.findAllPackageJSONFiles "package.json".toList).map
        (fun m => VersionTool.OutEntry.mk m []) :=
  version_absent_package
    { lsFilesAll := .ok "package.json".toList
      lsFileOk := fun _ => true
      logOutput := fun _ => .ok "h1 2024-01-01".toList
      showFile := fun _ _ => .ok "notjson".toList
      parseJson := fun _ => none }
    "left-pad".toList "package.json".toList "package.json".toList
    "h1 2024-01-01".toList (fun _ => [])
    rfl
    (by
      intro m hm
      have : VersionTool.findPackageVersion
          { lsFilesAll := .ok "package.json".toList
            lsFileOk := fun _ => true
            logOutput := fun _ => .ok "h1 2024-01-01".toList
            showFile := fun _ _ => .ok "notjson".toList
            parseJson := fun _ => none } m "left-pad".toList =
          .ok [] := by
        simp [VersionTool.findPackageVersion, VersionTool.extractLoop,
          VersionTool.parseCommits, VersionTool.dedupeByVersion,
          VersionTool.dedupeGo, VersionTool.extractPackageFromFile]
        decide
      exact this)
    (by decide) rfl rfl (by decide)
    (fun c hc content hcontent => rfl)

namespace CsvReparse

theorem dropExact_append (p rest : Str) : dropExact p (p ++ rest) = some rest := by
  induction p with
  | nil => rfl
  | cons c cs ih => simp [dropExact, ih]

theorem parseQuoted_quote_end : parseQuoted ['"'] = some ([], []) := rfl

theorem parseQuoted_quote_quote (l : Str) :
    parseQuoted ('"' :: '"' :: l) =
      match parseQuoted l with
      | some (f, r) => some ('"' :: f, r)
      | none => none := rfl

theorem parseQuoted_quote_close (c : Char) (l : Str) (hc : ¬ c = '"') :
    parseQuoted ('"' :: c :: l) = some ([], c :: l) := by
  show (if c = '"' then
      match parseQuoted l with
      | some (f, r) => some ('"' :: f, r)
      | none => none
    else some ([], c :: l)) = some ([], c :: l)
  rw [if_neg hc]

theorem parseQuoted_other (c : Char) (l : Str) (hc : ¬ c = '"') :
    parseQuoted (c :: l) =
      match parseQuoted l with
      | some (f, r) => some (c :: f, r)
      | none => none := by
  conv_lhs => rw [parseQuoted.eq_def]
  simp only [if_neg hc]

theorem escapeQuotes_cons_other (c : Char) (s : Str) (hc : ¬ c = '"') :
    KeywordTool.escapeQuotes (c :: s) = c :: KeywordTool.escapeQuotes s := by
  simp [KeywordTool.escapeQuotes, hc]

/-- Reading an escaped field body followed by its closing quote recovers
the original value, provided the input does not continue with a quote. -/
theorem parseQuoted_esc (s : Str) :
    ∀ rest : Str, rest.head? ≠ some '"' →
      parseQuoted (KeywordTool.escapeQuotes s ++ '"' :: rest) =
        some (s, rest) := by
  induction s with
  | nil =>
    intro rest h
    show parseQuoted ('"' :: rest) = some ([], rest)
    cases rest with
    | nil => exact parseQuoted_quote_end
    | cons c rest' =>
      have hc : ¬ c = '"' := by
        intro hh
        rw [hh] at h
        exact h rfl
      exact parseQuoted_quote_close c rest' hc
  | cons c s' ih =>
    intro rest h
    by_cases hc : c = '"'
    · subst hc
      show parseQuoted ('"' :: '"' ::
        (KeywordTool.escapeQuotes s' ++ '"' :: rest)) = _
      rw [parseQuoted_quote_quote, ih rest h]
    · rw [escapeQuotes_cons_other c s' hc, List.cons_append,
        parseQuoted_other c _ hc, ih rest h]

/-- Reading a quote-free field body followed by its closing quote recovers
the value, provided the input does not continue with a quote. -/
theorem parseQuoted_noesc (s : Str) :
    ∀ rest : Str, '"' ∉ s → rest.head? ≠ some '"' →
      parseQuoted (s ++ '"' :: rest) = some (s, rest) := by
  induction s with
  | nil =>
    intro rest _ h
    simpa using parseQuoted_esc [] rest h
  | cons c s' ih =>
    intro rest hq h
    have hc : ¬ c = '"' := by
      intro hh
      exact hq (by rw [hh]; exact List.mem_cons_self _ _)
    rw [List.cons_append, parseQuoted_other c _ hc,
      ih rest (fun hm => hq (List.mem_cons_of_mem _ hm)) h]

end CsvReparse

namespace KeywordTool

theorem csvRow_eq_cons (r : ExtractionRecord) :
    csvRow r = '"' :: (r.filename ++ '"' :: ',' :: '"' ::
      (r.date ++ '"' :: ',' :: '"' ::
        (escapeQuotes r.line ++ ['"']))) := by
  show '"' :: r.filename ++ '"' :: ',' :: '"' :: r.date ++ '"' :: ',' :: '"' ::
    escapeQuotes r.line ++ ['"'] = _
  simp [List.append_assoc]

end KeywordTool

namespace CsvReparse

/-- A CSV row emitted for a record whose filename and date are quote-free
parses back to the original triple, whatever the line contains. -/
theorem parseRow_csvRow (r : KeywordTool.ExtractionRecord) (rest : Str)
    (hf : '"' ∉ r.filename) (hd : '"' ∉ r.date)
    (hrest : rest.head? ≠ some '"') :
    parseRow (KeywordTool.csvRow r ++ rest) =
      some ((r.filename, r.date, r.line), rest) := by
  have hshape : KeywordTool.csvRow r ++ rest =
      '"' :: (r.filename ++ '"' :: (',' :: '"' ::
        (r.date ++ '"' :: (',' :: '"' ::
          (KeywordTool.escapeQuotes r.line ++ '"' :: rest))))) := by
    rw [KeywordTool.csvRow_eq_cons]
    simp [List.append_assoc]
  rw [hshape, parseRow]
  rw [parseQuoted_noesc r.filename _ hf (by simp)]
  simp only []
  rw [parseQuoted_noesc r.date _ hd (by simp)]
  simp only []
  rw [parseQuoted_esc r.line rest hrest]

theorem parseRows_cons_eq (fuel : Nat) (c : Char) (l : Str) :
    parseRows (fuel + 1) (c :: l) =
      match parseRow (c :: l) with
      | some (t, []) => some [t]
      | some (t, '\n' :: rest) =>
        match parseRows fuel rest with
        | some ts => some (t :: ts)
        | none => none
      | _ => none := rfl

/-- The newline-joined rows of any record list whose filenames and dates
are quote-free parse back to the original triples, given enough fuel. -/
theorem parseRows_rows (results : List KeywordTool.ExtractionRecord) :
    ∀ fuel, results.length < fuel →
      (∀ r ∈ results, '"' ∉ r.filename ∧ '"' ∉ r.date) →
      parseRows fuel
          (KeywordTool.joinRows ['\n'] (results.map KeywordTool.csvRow)) =
        some (results.map (fun r => (r.filename, r.date, r.line))) := by
  induction results with
  | nil =>
    intro fuel hfuel _
    cases fuel with
    | zero => exact absurd hfuel (Nat.not_lt_zero _)
    | succ f => rfl
  | cons r rs ih =>
    intro fuel hfuel h
    cases fuel with
    | zero => exact absurd hfuel (Nat.not_lt_zero _)
    | succ f =>
      have hrf : '"' ∉ r.filename := (h r (List.mem_cons_self _ _)).1
      have hrd : '"' ∉ r.date := (h r (List.mem_cons_self _ _)).2
      cases rs with
      | nil =>
        have hjoin : KeywordTool.joinRows ['\n']
            ((r :: ([] : List KeywordTool.ExtractionRecord)).map
              KeywordTool.csvRow) = KeywordTool.csvRow r ++ [] := by
          simp [KeywordTool.joinRows]
        rw [hjoin, KeywordTool.csvRow_eq_cons, List.cons_append,
          parseRows_cons_eq, ← List.cons_append, ← KeywordTool.csvRow_eq_cons,
          parseRow_csvRow r [] hrf hrd (by simp)]
        rfl
      | cons r' rs' =>
        have hjoin : KeywordTool.joinRows ['\n']
            ((r :: r' :: rs').map KeywordTool.csvRow) =
            KeywordTool.csvRow r ++ '\n' ::
              KeywordTool.joinRows ['\n']
                ((r' :: rs').map KeywordTool.csvRow) := by
          show KeywordTool.csvRow r ++ ['\n'] ++ _ = _
          simp [List.append_assoc]
        rw [hjoin, KeywordTool.csvRow_eq_cons, List.cons_append,
          parseRows_cons_eq, ← List.cons_append, ← KeywordTool.csvRow_eq_cons,
          parseRow_csvRow r _ hrf hrd (by simp)]
        simp only []
        rw [ih f (by simpa using Nat.lt_of_succ_lt_succ hfuel)
          (fun r'' hr'' => h r'' (List.mem_cons_of_mem _ hr''))]
        rfl

theorem length_le_joinRows (results : List KeywordTool.ExtractionRecord) :
    results.length ≤
      (KeywordTool.joinRows ['\n'] (results.map KeywordTool.csvRow)).length := by
  induction results with
  | nil => simp [KeywordTool.joinRows]
  | cons r rs ih =>
    cases rs with
    | nil =>
      show 1 ≤ (KeywordTool.joinRows ['\n'] [KeywordTool.csvRow r]).length
      rw [show KeywordTool.joinRows ['\n'] [KeywordTool.csvRow r] =
        KeywordTool.csvRow r from rfl, KeywordTool.csvRow_eq_cons]
      simp
    | cons r' rs' =>
      have hjoin : KeywordTool.joinRows ['\n']
          ((r :: r' :: rs').map KeywordTool.csvRow) =
          KeywordTool.csvRow r ++ ['\n'] ++
            KeywordTool.joinRows ['\n'] ((r' :: rs').map KeywordTool.csvRow) :=
        rfl
      rw [hjoin]
      have h1 : 1 ≤ (KeywordTool.csvRow r).length := by
        rw [KeywordTool.csvRow_eq_cons]
        simp
      simp only [List.length_append, List.length_cons, List.length_nil] at *
      omega

end CsvReparse

/-- Claim C5, amended — the CSV output is the header row followed by one
all-fields-quoted row per record, where the `line` field (and only that
field) has embedded double quotes escaped by doubling; consequently
re-parsing under the doubled-quote rule reconstructs the exact original
`(filename, date, line)` triples for every record list whose filename and
date fields are quote-free — lines may contain embedded quotes, commas and
newlines. -/
theorem csv_roundtrip_amended (results : List KeywordTool.ExtractionRecord)
    (h : ∀ r ∈ results, '"' ∉ r.filename ∧ '"' ∉ r.date) :
    CsvReparse.parseCsv (KeywordTool.csvContent results) =
      some (results.map (fun r => (r.filename, r.date, r.line))) := by
  show CsvReparse.parseCsv (KeywordTool.csvHeader ++
    KeywordTool.joinRows ['\n'] (results.map KeywordTool.csvRow)) = _
  unfold CsvReparse.parseCsv
  rw [CsvReparse.dropExact_append]
  show CsvReparse.parseRows _ _ = _
  exact CsvReparse.parseRows_rows results _
    (by have := CsvReparse.length_le_joinRows results; omega) h

/-- Concrete instantiation of the C5 amended theorem: a line containing an
escaped quote and a comma survives the round trip. -/
theorem csv_roundtrip_amended_witness :
    CsvReparse.parseCsv (KeywordTool.csvContent
      [⟨"src/a.js".toList, "2024-01-01".toList,
        "\"lodash\": \"^4.0.0\", \"x\"".toList⟩,
       ⟨"src/b.js".toList, "2024-02-01".toList, "plain".toList⟩]) =
      some [("src/a.js".toList, "2024-01-01".toList,
        "\"lodash\": \"^4.0.0\", \"x\"".toList),
       ("src/b.js".toList, "2024-02-01".toList, "plain".toList)] :=
  csv_roundtrip_amended
    [⟨"src/a.js".toList, "2024-01-01".toList,
      "\"lodash\": \"^4.0.0\", \"x\"".toList⟩,
     ⟨"src/b.js".toList, "2024-02-01".toList, "plain".toList⟩]
    (by decide)

/-- Counterexample to claim C5 as stated: the writer does not escape
double quotes inside the filename field, so a record whose filename
contains a quote does not survive the round trip. -/
theorem csv_roundtrip_cex :
    CsvReparse.parseCsv (KeywordTool.csvContent
      [⟨('a' :: '"' :: ['b']), "d".toList, "l".toList⟩]) ≠
      some [(('a' :: '"' :: ['b']), "d".toList, "l".toList)] := by decide

example :
    KeywordTool.processCommits
      { diffTree := fun _ => .ok "a.txt\nb.md".toList
        showFile := fun _ f => if f = "a.txt".toList then .ok " keyword here \nother".toList else .error []
        matchesPattern := fun f => f = "a.txt".toList }
      [⟨"h1".toList, "d1".toList⟩] "keyword".toList false
    = [⟨"a.txt".toList, "d1".toList, "keyword here".toList⟩] := by decide
